import Mathlib

/-!
Verification of the LiteFlowX tensor operators (`liteflow/ops.py`).

The module under verification provides four stateless tensor transforms built
on TensorFlow graph operations:

* `trim`, `pad`, `fit` — adjust the last axis of a 3D tensor `[batch, length,
  in_width]` to a target width by truncation or zero padding, each guarded by
  a `tf.cond` no-op fast path;
* `softmax` — a last-axis softmax that, given a 0/1 mask, computes
  `exps = tf.exp(logits)`, `masked = exps * mask`,
  `sums = tf.reduce_sum(masked, axis=-1, keep_dims=True)` and returns
  `masked / sums`.

The shallow embedding below represents a 3D tensor as nested lists of
rationals, and represents a (conceptually 2D, "rows along the last axis")
logits tensor for `softmax` as a list of rows.  The exponential is an
arbitrary parameter `e : ℚ → ℚ`; every theorem that needs it assumes
`∀ x, 0 < e x`, the one property of `exp` the code relies on.  The final
division of `softmax` is embedded with IEEE-style semantics for the exact
zero-denominator case (`FVal` / `fdiv` below), so the degenerate all-masked
row is modelled faithfully (`0.0 / 0.0 = NaN`).
-/

namespace LiteFlow

/-- A 3D tensor `[batch, length, width]` as nested lists of rationals. -/
abbrev Tensor3 := List (List (List ℚ))

/-- `tf.shape(tensor)[-1]`: the size of the last (-1) axis of a rectangular
3D tensor, read off the first row (0 when the tensor holds no row). -/
def shapeLast (t : Tensor3) : ℕ :=
  match t with
  | [] => 0
  | m :: _ =>
    match m with
    | [] => 0
    | r :: _ => r.length

/-- `_trim(tensor, width)` (ops.py lines 6-11): `tf.slice` with
`begin = [0, 0, 0]` and `size = [batch, length, width]`, i.e. the first
`width` entries of every last-axis row. -/
def trimSlice (t : Tensor3) (width : ℕ) : Tensor3 :=
  t.map (fun m => m.map (fun r => r.take width))

/-- `trim(tensor, width)` (ops.py lines 14-56): `tf.cond` on
`shape[-1] <= width`; the tensor unchanged on the fast path, `_trim`
otherwise. -/
def trim (t : Tensor3) (width : ℕ) : Tensor3 :=
  if shapeLast t ≤ width then t else trimSlice t width

/-- `_pad(tensor, width)` (ops.py lines 59-64): `diff = width - shape[-1]`,
then `tf.pad` appending `diff` zeros along the last axis of every row. -/
def padZeros (t : Tensor3) (width : ℕ) : Tensor3 :=
  t.map (fun m => m.map (fun r => r ++ List.replicate (width - shapeLast t) (0 : ℚ)))

/-- `pad(tensor, width)` (ops.py lines 67-109): `tf.cond` on
`shape[-1] >= width`; the tensor unchanged on the fast path, `_pad`
otherwise. -/
def pad (t : Tensor3) (width : ℕ) : Tensor3 :=
  if width ≤ shapeLast t then t else padZeros t width

/-- `_fit(tensor, width)` (ops.py lines 112-117): `tf.cond` on
`actual > width`, dispatching to `_trim` or `_pad`. -/
def fitDispatch (t : Tensor3) (width : ℕ) : Tensor3 :=
  if width < shapeLast t then trimSlice t width else padZeros t width

/-- `fit(tensor, width)` (ops.py lines 120-212): `tf.cond` on
`actual == width`; the tensor unchanged on the fast path, `_fit`
otherwise. -/
def fit (t : Tensor3) (width : ℕ) : Tensor3 :=
  if shapeLast t = width then t else fitDispatch t width

/-- `t` is a rectangular 3D tensor of shape `[b, l, w]`. -/
def IsRect3 (t : Tensor3) (b l w : ℕ) : Prop :=
  t.length = b ∧ ∀ m ∈ t, m.length = l ∧ ∀ r ∈ m, r.length = w

instance (t : Tensor3) (b l w : ℕ) : Decidable (IsRect3 t b l w) := by
  unfold IsRect3; infer_instance

/-- Total element access `t[k][j][i]` with out-of-range default `0`. -/
def get3 (t : Tensor3) (k j i : ℕ) : ℚ :=
  ((t.getD k []).getD j []).getD i 0

/-- Result of the final floating-point division in `softmax`.  `fdiv` below
gives IEEE semantics at an exactly-zero denominator (`0/0 = NaN`,
`x/0 = ±Inf`); away from zero the division is the exact rational one. -/
inductive FVal where
  | fin : ℚ → FVal
  | nan : FVal
  | inf : FVal
  | ninf : FVal
deriving DecidableEq, Repr

/-- Whether a division result is an ordinary finite number. -/
def FVal.isFinite : FVal → Bool
  | .fin _ => true
  | _ => false

/-- The rational carried by a finite division result (`0` otherwise). -/
def FVal.toQ : FVal → ℚ
  | .fin q => q
  | _ => 0

/-- Division with IEEE-style behaviour at an exactly-zero denominator. -/
def fdiv (x y : ℚ) : FVal :=
  if y = 0 then
    if x = 0 then .nan else if 0 < x then .inf else .ninf
  else .fin (x / y)

/-- `masked = exps * mask` (ops.py lines 256-257) on one last-axis row:
`tf.exp` elementwise (the abstract exponential `e`) times the mask. -/
def masked (e : ℚ → ℚ) (ls ms : List ℚ) : List ℚ :=
  List.zipWith (fun l m => e l * m) ls ms

/-- `sums = tf.reduce_sum(masked, axis=-1, keep_dims=True)` (ops.py line 258)
on one row. -/
def sums (e : ℚ → ℚ) (ls ms : List ℚ) : ℚ :=
  (masked e ls ms).sum

/-- `masked / sums` (ops.py line 259) on one row. -/
def softmaxRow (e : ℚ → ℚ) (ls ms : List ℚ) : List FVal :=
  (masked e ls ms).map (fun x => fdiv x (sums e ls ms))

/-- The masked branch of `softmax` (ops.py lines 255-259), applied row by row
along the last axis. -/
def softmax (e : ℚ → ℚ) (logits mask : List (List ℚ)) : List (List FVal) :=
  List.zipWith (softmaxRow e) logits mask

/-- `tf.nn.softmax(logits, dim=-1)` (ops.py line 253) on one row:
`exp(l_i) / Σ_j exp(l_j)`. -/
def nnSoftmaxRow (e : ℚ → ℚ) (ls : List ℚ) : List FVal :=
  ls.map (fun x => fdiv (e x) ((ls.map e).sum))

/-- The unmasked branch of `softmax`: `tf.nn.softmax` along the last axis. -/
def nnSoftmax (e : ℚ → ℚ) (logits : List (List ℚ)) : List (List FVal) :=
  logits.map (nnSoftmaxRow e)

/-- `softmax(logits, mask=None, name='softmax')` (ops.py lines 215-259).  The
`name` argument only labels the graph scope (`tf.variable_scope(name)` /
the `name` of `tf.nn.softmax`) and contributes nothing to the numeric
value, so the embedding carries it without consulting it. -/
def softmaxOp (e : ℚ → ℚ) (logits : List (List ℚ))
    (mask : Option (List (List ℚ))) (name : String) : List (List FVal) :=
  match mask with
  | none => nnSoftmax e logits
  | some m => softmax e logits m

/-- Sum of `e` over the unmasked positions (mask value nonzero) of a row:
the reference denominator of the specification. -/
def unmaskedSum (e : ℚ → ℚ) (ls ms : List ℚ) : ℚ :=
  (((ls.zip ms).filter (fun p => decide (p.2 ≠ 0))).map (fun p => e p.1)).sum

/-- Total element access for a list of last-axis rows of rationals. -/
def q2 (t : List (List ℚ)) (k i : ℕ) : ℚ :=
  (t.getD k []).getD i 0

/-- Total element access for a list of last-axis rows of division results. -/
def f2 (t : List (List FVal)) (k i : ℕ) : FVal :=
  (t.getD k []).getD i FVal.nan

/-- Width handling over Python `int` for `pad`: the width argument of the
source is a signed integer.  `tf.pad` rejects negative paddings, so that
check appears here as an error branch; it is unreachable because the
`tf.cond` fast path already returns the tensor whenever
`width <= shape[-1]`. -/
def padZ (t : Tensor3) (width : ℤ) : Except String Tensor3 :=
  if width ≤ (shapeLast t : ℤ) then .ok t
  else if width - (shapeLast t : ℤ) < 0 then .error "pad: negative paddings"
  else .ok (t.map (fun m => m.map
    (fun r => r ++ List.replicate (width - (shapeLast t : ℤ)).toNat (0 : ℚ))))

/-- A concrete positive stand-in for the exponential, used by witnesses. -/
def expOne : ℚ → ℚ := fun _ => 1


theorem getD_eq_get {α : Type} (l : List α) (d : α) {i : ℕ} (h : i < l.length) :
    l.getD i d = l.get ⟨i, h⟩ := by
  simp [List.getD_eq_getElem?_getD, List.getElem?_eq_getElem h]

theorem shapeLast_of_rect {t : Tensor3} {b l w : ℕ} (ht : IsRect3 t b l w)
    (hb : 0 < b) (hl : 0 < l) : shapeLast t = w := by
  obtain ⟨hlen, hrows⟩ := ht
  match t with
  | [] => simp at hlen; omega
  | m :: ms =>
    obtain ⟨hm, hr⟩ := hrows m (by simp)
    match m with
    | [] => simp at hm; omega
    | r :: rs =>
      have := hr r (by simp)
      simpa [shapeLast] using this

/-- In the degenerate shapes (no batch entries or no rows) every operation of
the width-fitting family returns its argument unchanged. -/
theorem degenerate_eq {t : Tensor3} {b l w : ℕ} (ht : IsRect3 t b l w)
    (hd : b = 0 ∨ l = 0) (width : ℕ) :
    trimSlice t width = t ∧ padZeros t width = t ∧
      trim t width = t ∧ pad t width = t ∧ fit t width = t := by
  obtain ⟨hlen, hrows⟩ := ht
  have hm : ∀ m ∈ t, m = [] := by
    intro m hm
    rcases hd with hb | hl
    · exfalso
      have : t = [] := by
        cases t with
        | nil => rfl
        | cons x xs => simp [hb] at hlen
      simp [this] at hm
    · have := (hrows m hm).1
      rw [hl] at this
      exact List.length_eq_zero.mp this
  have hmap : ∀ g : List ℚ → List ℚ, t.map (fun m => m.map g) = t := by
    intro g
    calc t.map (fun m => m.map g) = t.map id := by
          apply List.map_congr_left
          intro m hmem
          rw [hm m hmem]
          rfl
      _ = t := List.map_id t
  have htrim : trimSlice t width = t := hmap _
  have hpad : padZeros t width = t := hmap _
  refine ⟨htrim, hpad, ?_, ?_, ?_⟩
  · unfold trim
    split <;> simp [htrim]
  · unfold pad
    split <;> simp [hpad]
  · unfold fit fitDispatch
    split
    · rfl
    · split <;> simp [htrim, hpad]

/-- In the degenerate shapes a tensor is rectangular at every last-axis
size. -/
theorem rect_any_of_degenerate {t : Tensor3} {b l w : ℕ} (ht : IsRect3 t b l w)
    (hd : b = 0 ∨ l = 0) (w' : ℕ) : IsRect3 t b l w' := by
  obtain ⟨hlen, hrows⟩ := ht
  refine ⟨hlen, fun m hm => ⟨(hrows m hm).1, fun r hr => ?_⟩⟩
  rcases hd with hb | hl
  · exfalso
    have : t = [] := by
      cases t with
      | nil => rfl
      | cons x xs => simp [hb] at hlen
    simp [this] at hm
  · exfalso
    have : m = [] := List.length_eq_zero.mp (by rw [(hrows m hm).1, hl])
    simp [this] at hr

theorem getD_map_of_nil {α β : Type} (f : List α → List β) (hf : f [] = [])
    (l : List (List α)) (k : ℕ) : (l.map f).getD k [] = f (l.getD k []) := by
  by_cases h : k < l.length
  · have h' : k < (l.map f).length := by simpa using h
    rw [getD_eq_get _ _ h', getD_eq_get _ _ h]
    simp
  · push_neg at h
    rw [List.getD_eq_getElem?_getD, List.getD_eq_getElem?_getD,
      List.getElem?_eq_none (by simpa using h), List.getElem?_eq_none h]
    simp [hf]

theorem getD_map_pos {α β : Type} (f : α → β) (l : List α) {k : ℕ}
    (h : k < l.length) (d : α) (d' : β) :
    (l.map f).getD k d' = f (l.getD k d) := by
  have h' : k < (l.map f).length := by simpa using h
  rw [getD_eq_get _ _ h', getD_eq_get _ _ h]
  simp

theorem getD_take (r : List ℚ) (width i : ℕ) (hi : i < width) :
    (r.take width).getD i 0 = r.getD i 0 := by
  by_cases h : i < r.length
  · have h1 : i < (r.take width).length := by
      simp only [List.length_take]
      omega
    rw [getD_eq_get _ _ h1, getD_eq_get _ _ h]
    simp [List.get_take]
  · push_neg at h
    rw [List.getD_eq_getElem?_getD, List.getD_eq_getElem?_getD,
      List.getElem?_eq_none (by simp only [List.length_take]; omega),
      List.getElem?_eq_none h]

theorem getD_append_left (r s : List ℚ) (i : ℕ) (h : i < r.length) :
    (r ++ s).getD i 0 = r.getD i 0 := by
  have h' : i < (r ++ s).length := by
    simp only [List.length_append]
    omega
  rw [getD_eq_get _ _ h', getD_eq_get _ _ h]
  simp only [List.get_eq_getElem]
  rw [List.getElem_append]
  rw [dif_pos h]

theorem getD_append_replicate (r : List ℚ) (d i : ℕ) (h : r.length ≤ i)
    (h2 : i < r.length + d) :
    (r ++ List.replicate d (0 : ℚ)).getD i 0 = 0 := by
  have h' : i < (r ++ List.replicate d (0 : ℚ)).length := by
    simp only [List.length_append, List.length_replicate]
    omega
  rw [getD_eq_get _ _ h']
  simp only [List.get_eq_getElem]
  rw [List.getElem_append]
  rw [dif_neg (by omega)]
  simp [List.getElem_replicate]

theorem rect_row_length {t : Tensor3} {b l w : ℕ} (ht : IsRect3 t b l w)
    {k j : ℕ} (hk : k < b) (hj : j < l) :
    ((t.getD k []).getD j []).length = w := by
  obtain ⟨hlen, hrows⟩ := ht
  have hk' : k < t.length := by omega
  have hmem : t.getD k [] ∈ t := by
    rw [getD_eq_get _ _ hk']
    exact List.get_mem _ _ _
  obtain ⟨hml, hrow⟩ := hrows _ hmem
  have hj' : j < (t.getD k []).length := by omega
  have hmem2 : (t.getD k []).getD j [] ∈ t.getD k [] := by
    rw [getD_eq_get _ _ hj']
    exact List.get_mem _ _ _
  exact hrow _ hmem2

theorem rect_trimSlice {t : Tensor3} {b l w : ℕ} (ht : IsRect3 t b l w)
    (width : ℕ) : IsRect3 (trimSlice t width) b l (min width w) := by
  obtain ⟨hlen, hrows⟩ := ht
  refine ⟨by simpa [trimSlice] using hlen, fun m hm => ?_⟩
  simp only [trimSlice, List.mem_map] at hm
  obtain ⟨m0, hm0, rfl⟩ := hm
  obtain ⟨hml, hrow⟩ := hrows m0 hm0
  refine ⟨by simpa using hml, fun r hr => ?_⟩
  simp only [List.mem_map] at hr
  obtain ⟨r0, hr0, rfl⟩ := hr
  simp [hrow r0 hr0]

theorem rect_padZeros {t : Tensor3} {b l w : ℕ} (ht : IsRect3 t b l w)
    (hb : 0 < b) (hl : 0 < l) (width : ℕ) :
    IsRect3 (padZeros t width) b l (max w width) := by
  have hs := shapeLast_of_rect ht hb hl
  obtain ⟨hlen, hrows⟩ := ht
  refine ⟨by simpa [padZeros] using hlen, fun m hm => ?_⟩
  simp only [padZeros, List.mem_map] at hm
  obtain ⟨m0, hm0, rfl⟩ := hm
  obtain ⟨hml, hrow⟩ := hrows m0 hm0
  refine ⟨by simpa using hml, fun r hr => ?_⟩
  simp only [List.mem_map] at hr
  obtain ⟨r0, hr0, rfl⟩ := hr
  simp only [List.length_append, List.length_replicate, hrow r0 hr0, hs]
  omega

theorem get3_map_map_pos (g : List ℚ → List ℚ) (t : Tensor3) (k j i : ℕ)
    (hk' : k < t.length) (hj' : j < (t.getD k []).length) :
    get3 (t.map (fun m => m.map g)) k j i
      = (g ((t.getD k []).getD j [])).getD i 0 := by
  unfold get3
  rw [getD_map_pos (fun m => m.map g) t hk' [] []]
  rw [getD_map_pos g (t.getD k []) hj' [] []]

theorem rect_middle_length {t : Tensor3} {b l w : ℕ} (ht : IsRect3 t b l w)
    {k : ℕ} (hk : k < b) :
    k < t.length ∧ (t.getD k []).length = l := by
  obtain ⟨hlen, hrows⟩ := ht
  have hk' : k < t.length := by omega
  refine ⟨hk', ?_⟩
  have hmem : t.getD k [] ∈ t := by
    rw [getD_eq_get _ _ hk']
    exact List.get_mem _ _ _
  exact (hrows _ hmem).1

theorem get3_trimSlice (t : Tensor3) (width k j i : ℕ) (hi : i < width) :
    get3 (trimSlice t width) k j i = get3 t k j i := by
  unfold get3 trimSlice
  rw [getD_map_of_nil _ rfl, getD_map_of_nil _ (by simp)]
  exact getD_take _ _ _ hi

theorem get3_padZeros_left {t : Tensor3} {b l w : ℕ} (ht : IsRect3 t b l w)
    (width : ℕ) {k j i : ℕ} (hk : k < b) (hj : j < l) (hi : i < w) :
    get3 (padZeros t width) k j i = get3 t k j i := by
  obtain ⟨hk', hml⟩ := rect_middle_length ht hk
  have hj' : j < (t.getD k []).length := by omega
  have hr := rect_row_length ht hk hj
  unfold padZeros
  rw [get3_map_map_pos _ t k j i hk' hj']
  unfold get3
  exact getD_append_left _ _ _ (by omega)

theorem get3_padZeros_zero {t : Tensor3} {b l w : ℕ} (ht : IsRect3 t b l w)
    (hb : 0 < b) (hl : 0 < l) (width : ℕ) {k j i : ℕ}
    (hk : k < b) (hj : j < l) (hwi : w ≤ i) (hi : i < width) :
    get3 (padZeros t width) k j i = 0 := by
  have hs := shapeLast_of_rect ht hb hl
  obtain ⟨hk', hml⟩ := rect_middle_length ht hk
  have hj' : j < (t.getD k []).length := by omega
  have hr := rect_row_length ht hk hj
  unfold padZeros
  rw [get3_map_map_pos _ t k j i hk' hj']
  rw [hs]
  exact getD_append_replicate _ _ _ (by omega) (by rw [hr]; omega)

/-- The three-way dispatch of `fit` in the non-degenerate case. -/
theorem fit_cases {t : Tensor3} {b l w : ℕ} (ht : IsRect3 t b l w)
    (hb : 0 < b) (hl : 0 < l) (width : ℕ) :
    (w = width → fit t width = t) ∧
    (width < w → fit t width = trimSlice t width ∧ trim t width = trimSlice t width) ∧
    (w < width → fit t width = padZeros t width ∧ pad t width = padZeros t width) := by
  have hs := shapeLast_of_rect ht hb hl
  refine ⟨fun h => ?_, fun h => ⟨?_, ?_⟩, fun h => ⟨?_, ?_⟩⟩
  · unfold fit
    rw [if_pos (by omega)]
  · unfold fit fitDispatch
    rw [if_neg (by omega), if_pos (by omega)]
  · unfold trim
    rw [if_neg (by omega)]
  · unfold fit fitDispatch
    rw [if_neg (by omega), if_neg (by omega)]
  · unfold pad
    rw [if_neg (by omega)]

theorem rect_fit {t : Tensor3} {b l w : ℕ} (ht : IsRect3 t b l w) (width : ℕ) :
    IsRect3 (fit t width) b l width := by
  by_cases hd : b = 0 ∨ l = 0
  · rw [(degenerate_eq ht hd width).2.2.2.2]
    exact rect_any_of_degenerate ht hd width
  · push_neg at hd
    have hb : 0 < b := by omega
    have hl : 0 < l := by omega
    obtain ⟨hfeq, hftrim, hfpad⟩ := fit_cases ht hb hl width
    rcases lt_trichotomy w width with hlt | heq | hgt
    · rw [(hfpad hlt).1]
      have := rect_padZeros ht hb hl width
      rwa [max_eq_right (le_of_lt hlt)] at this
    · rw [hfeq heq, ← heq]
      exact ht
    · rw [(hftrim hgt).1]
      have := rect_trimSlice ht width
      rwa [min_eq_left (le_of_lt hgt)] at this

theorem getD_zipWith_pos {α β γ : Type} (f : α → β → γ) (as : List α)
    (bs : List β) {i : ℕ} (ha : i < as.length) (hb : i < bs.length)
    (d1 : α) (d2 : β) (d : γ) :
    (List.zipWith f as bs).getD i d = f (as.getD i d1) (bs.getD i d2) := by
  have h : i < (List.zipWith f as bs).length := by
    rw [List.length_zipWith]
    omega
  rw [getD_eq_get _ _ h, getD_eq_get _ _ ha, getD_eq_get _ _ hb]
  simp [List.getElem_zipWith]

theorem masked_nonneg (e : ℚ → ℚ) (he : ∀ x, 0 < e x) (ls ms : List ℚ)
    (h01 : ∀ m ∈ ms, m = 0 ∨ m = 1) :
    ∀ x ∈ masked e ls ms, 0 ≤ x := by
  induction ls generalizing ms with
  | nil => intro x hx; simp [masked] at hx
  | cons l ls ih =>
    intro x hx
    cases ms with
    | nil => simp [masked] at hx
    | cons m ms' =>
      simp only [masked, List.zipWith_cons_cons, List.mem_cons] at hx
      rcases hx with rfl | hx
      · rcases h01 m (by simp) with h0 | h1
        · simp [h0]
        · rw [h1, mul_one]
          exact le_of_lt (he l)
      · exact ih ms' (fun x hx => h01 x (by simp [hx])) x hx

theorem sums_eq_unmaskedSum (e : ℚ → ℚ) (ls ms : List ℚ)
    (h01 : ∀ m ∈ ms, m = 0 ∨ m = 1) :
    sums e ls ms = unmaskedSum e ls ms := by
  induction ls generalizing ms with
  | nil => cases ms <;> simp [sums, masked, unmaskedSum]
  | cons l ls ih =>
    cases ms with
    | nil => simp [sums, masked, unmaskedSum]
    | cons m ms' =>
      have ih' := ih ms' (fun x hx => h01 x (by simp [hx]))
      rcases h01 m (by simp) with h0 | h1
      · subst h0
        simpa [sums, masked, unmaskedSum] using ih'
      · subst h1
        simp only [sums, masked, unmaskedSum, List.zipWith_cons_cons,
          List.zip_cons_cons, List.sum_cons, List.filter_cons] at ih' ⊢
        norm_num
        simpa [sums, masked, unmaskedSum] using ih'

theorem sums_pos (e : ℚ → ℚ) (he : ∀ x, 0 < e x) (ls ms : List ℚ)
    (hlen : ms.length = ls.length) (h01 : ∀ m ∈ ms, m = 0 ∨ m = 1)
    (hone : ∃ m ∈ ms, m = 1) :
    0 < sums e ls ms := by
  induction ls generalizing ms with
  | nil =>
    cases ms with
    | nil => simp at hone
    | cons m ms' => simp at hlen
  | cons l ls ih =>
    cases ms with
    | nil => simp at hone
    | cons m ms' =>
      have hlen' : ms'.length = ls.length := by simpa using hlen
      have h01' : ∀ x ∈ ms', x = 0 ∨ x = 1 := fun x hx => h01 x (by simp [hx])
      have hnn : 0 ≤ (masked e ls ms').sum :=
        List.sum_nonneg (masked_nonneg e he ls ms' h01')
      have hhead : sums e (l :: ls) (m :: ms')
          = e l * m + (masked e ls ms').sum := by
        simp [sums, masked]
      rcases h01 m (by simp) with h0 | h1
      · subst h0
        obtain ⟨x, hx, hx1⟩ := hone
        rcases List.mem_cons.mp hx with rfl | hx'
        · norm_num at hx1
        · have := ih ms' hlen' h01' ⟨x, hx', hx1⟩
          rw [hhead, mul_zero, zero_add]
          exact this
      · subst h1
        rw [hhead, mul_one]
        exact add_pos_of_pos_of_nonneg (he l) hnn

theorem sum_map_div (xs : List ℚ) (S : ℚ) :
    (xs.map (fun x => x / S)).sum = xs.sum / S := by
  induction xs with
  | nil => simp
  | cons x xs ih => simp [ih, add_div]

/-- Pointwise description of one row of the masked softmax when the row has
at least one unmasked position. -/
theorem softmaxRow_spec (e : ℚ → ℚ) (he : ∀ x, 0 < e x) (ls ms : List ℚ)
    (hlen : ms.length = ls.length)
    (h01 : ∀ m ∈ ms, m = 0 ∨ m = 1)
    (hone : ∃ m ∈ ms, m = 1) :
    (softmaxRow e ls ms).length = ls.length
    ∧ (∀ v ∈ softmaxRow e ls ms, v.isFinite = true)
    ∧ ((softmaxRow e ls ms).map FVal.toQ).sum = 1
    ∧ ∀ i, i < ls.length →
        (ms.getD i 0 = 0 → (softmaxRow e ls ms).getD i .nan = .fin 0)
        ∧ (ms.getD i 0 = 1 → (softmaxRow e ls ms).getD i .nan
            = .fin (e (ls.getD i 0) / unmaskedSum e ls ms)) := by
  have hS : 0 < sums e ls ms := sums_pos e he ls ms hlen h01 hone
  have hS0 : sums e ls ms ≠ 0 := ne_of_gt hS
  have hmlen : (masked e ls ms).length = ls.length := by
    simp [masked, List.length_zipWith, hlen]
  have hfin : ∀ x : ℚ, fdiv x (sums e ls ms) = .fin (x / sums e ls ms) := by
    intro x
    simp [fdiv, hS0]
  refine ⟨?_, ?_, ?_, ?_⟩
  · simp [softmaxRow, hmlen]
  · intro v hv
    simp only [softmaxRow, List.mem_map] at hv
    obtain ⟨x, _, rfl⟩ := hv
    rw [hfin x]
    rfl
  · have h1 : (softmaxRow e ls ms).map FVal.toQ
        = (masked e ls ms).map (fun x => x / sums e ls ms) := by
      unfold softmaxRow
      rw [List.map_map]
      apply List.map_congr_left
      intro x _
      simp [Function.comp, hfin x, FVal.toQ]
    rw [h1, sum_map_div]
    exact div_self hS0
  · intro i hi
    have hi' : i < ms.length := by omega
    have him : i < (masked e ls ms).length := by omega
    have hrow : (softmaxRow e ls ms).getD i .nan
        = fdiv ((masked e ls ms).getD i 0) (sums e ls ms) := by
      unfold softmaxRow
      exact getD_map_pos _ _ him 0 FVal.nan
    have hmi : (masked e ls ms).getD i 0
        = e (ls.getD i 0) * ms.getD i 0 := by
      unfold masked
      exact getD_zipWith_pos _ _ _ hi hi' 0 0 0
    constructor
    · intro h0
      rw [hrow, hmi, h0, mul_zero, hfin 0, zero_div]
    · intro h1
      rw [hrow, hmi, h1, mul_one, hfin, sums_eq_unmaskedSum e ls ms h01]

theorem masked_all_zero (e : ℚ → ℚ) (ls ms : List ℚ)
    (hz : ∀ m ∈ ms, m = 0) :
    ∀ x ∈ masked e ls ms, x = 0 := by
  induction ls generalizing ms with
  | nil => intro x hx; simp [masked] at hx
  | cons l ls ih =>
    intro x hx
    cases ms with
    | nil => simp [masked] at hx
    | cons m ms' =>
      simp only [masked, List.zipWith_cons_cons, List.mem_cons] at hx
      rcases hx with rfl | hx
      · rw [hz m (by simp), mul_zero]
      · exact ih ms' (fun x hx => hz x (by simp [hx])) x hx

theorem masked_ones (e : ℚ → ℚ) (ls ms : List ℚ)
    (hlen : ms.length = ls.length) (hones : ∀ m ∈ ms, m = 1) :
    masked e ls ms = ls.map e := by
  induction ls generalizing ms with
  | nil =>
    cases ms with
    | nil => rfl
    | cons m ms' => simp at hlen
  | cons l ls ih =>
    cases ms with
    | nil => simp at hlen
    | cons m ms' =>
      have h1 : m = 1 := hones m (by simp)
      simp only [masked, List.zipWith_cons_cons, List.map_cons] at ih ⊢
      rw [h1, mul_one]
      exact congrArg _ (ih ms' (by simpa using hlen)
        (fun x hx => hones x (by simp [hx])))

theorem softmaxRow_ones (e : ℚ → ℚ) (ls ms : List ℚ)
    (hlen : ms.length = ls.length) (hones : ∀ m ∈ ms, m = 1) :
    softmaxRow e ls ms = nnSoftmaxRow e ls := by
  unfold softmaxRow nnSoftmaxRow sums
  rw [masked_ones e ls ms hlen hones, List.map_map]
  rfl

theorem softmax_eq_nnSoftmax_of_ones (e : ℚ → ℚ) :
    ∀ logits mask : List (List ℚ),
      List.Forall₂ (fun ls ms => ms.length = ls.length) logits mask →
      (∀ ms ∈ mask, ∀ m ∈ ms, m = 1) →
      softmax e logits mask = nnSoftmax e logits := by
  intro logits
  induction logits with
  | nil =>
    intro mask h _
    cases h
    rfl
  | cons ls logits ih =>
    intro mask h hones
    cases h with
    | cons hlen htail =>
      rename_i ms mask'
      simp only [softmax, nnSoftmax, List.zipWith_cons_cons, List.map_cons]
      rw [softmaxRow_ones e ls ms hlen (hones ms (by simp))]
      have := ih mask' htail (fun x hx => hones x (by simp [hx]))
      unfold softmax nnSoftmax at this
      rw [this]

/-- C1: for every logits tensor and same-shape 0/1 mask whose every row has
at least one unmasked position, `softmax(logits, mask)` has the shape of
`logits`, is finite everywhere, puts exactly `0.0` at every masked position,
sums to `1.0` along the last axis (the masked positions contributing `0`), and
at every unmasked position equals `exp(logits_i)` divided by the sum of
`exp(logits_j)` over the unmasked positions `j` of that row. -/
theorem softmax_mask_correct (e : ℚ → ℚ) (he : ∀ x, 0 < e x)
    (logits mask : List (List ℚ))
    (hlen : mask.length = logits.length)
    (hrowlen : ∀ k, k < logits.length →
      (mask.getD k []).length = (logits.getD k []).length)
    (h01 : ∀ ms ∈ mask, ∀ m ∈ ms, m = 0 ∨ m = 1)
    (hone : ∀ ms ∈ mask, ∃ m ∈ ms, m = 1) :
    (softmax e logits mask).length = logits.length
    ∧ ∀ k, k < logits.length →
        ((softmax e logits mask).getD k []).length = (logits.getD k []).length
        ∧ (∀ v ∈ (softmax e logits mask).getD k [], v.isFinite = true)
        ∧ (((softmax e logits mask).getD k []).map FVal.toQ).sum = 1
        ∧ ∀ i, i < (logits.getD k []).length →
            (q2 mask k i = 0 → f2 (softmax e logits mask) k i = FVal.fin 0)
            ∧ (q2 mask k i = 1 → f2 (softmax e logits mask) k i
                = FVal.fin (e (q2 logits k i)
                    / unmaskedSum e (logits.getD k []) (mask.getD k []))) := by
  have hslen : (softmax e logits mask).length = logits.length := by
    simp [softmax, List.length_zipWith, hlen]
  refine ⟨hslen, fun k hk => ?_⟩
  have hk' : k < mask.length := by omega
  have hrow : (softmax e logits mask).getD k []
      = softmaxRow e (logits.getD k []) (mask.getD k []) := by
    unfold softmax
    exact getD_zipWith_pos _ _ _ hk hk' [] [] []
  have hmem : mask.getD k [] ∈ mask := by
    rw [getD_eq_get _ _ hk']
    exact List.get_mem _ _ _
  obtain ⟨hs1, hs2, hs3, hs4⟩ := softmaxRow_spec e he (logits.getD k [])
    (mask.getD k []) (hrowlen k hk) (h01 _ hmem) (hone _ hmem)
  refine ⟨by rw [hrow]; exact hs1, by rw [hrow]; exact hs2,
    by rw [hrow]; exact hs3, fun i hi => ?_⟩
  obtain ⟨hz, ho⟩ := hs4 i hi
  constructor
  · intro h0
    unfold f2
    rw [hrow]
    exact hz h0
  · intro h1
    unfold f2
    rw [hrow]
    exact ho h1

/-- Witness for C1 at `logits = [[0, 2]]`, `mask = [[1, 0]]` and the concrete
positive exponential `expOne`. -/
theorem softmax_mask_correct_witness :
    (∀ x : ℚ, 0 < expOne x)
    ∧ [[(1 : ℚ), 0]].length = [[(0 : ℚ), 2]].length
    ∧ (∀ k, k < [[(0 : ℚ), 2]].length →
        ([[(1 : ℚ), 0]].getD k []).length = ([[(0 : ℚ), 2]].getD k []).length)
    ∧ (∀ ms ∈ [[(1 : ℚ), 0]], ∀ m ∈ ms, m = 0 ∨ m = 1)
    ∧ (∀ ms ∈ [[(1 : ℚ), 0]], ∃ m ∈ ms, m = 1)
    ∧ f2 (softmax expOne [[0, 2]] [[1, 0]]) 0 1 = FVal.fin 0
    ∧ f2 (softmax expOne [[0, 2]] [[1, 0]]) 0 0
        = FVal.fin (expOne (q2 [[0, 2]] 0 0)
            / unmaskedSum expOne [(0 : ℚ), 2] [(1 : ℚ), 0]) := by
  have he : ∀ x : ℚ, 0 < expOne x := fun x => by norm_num [expOne]
  have h := softmax_mask_correct expOne he [[0, 2]] [[1, 0]]
    (by decide) (by decide) (by decide) (by decide)
  refine ⟨he, by decide, by decide, by decide, by decide, ?_, ?_⟩
  · exact ((h.2 0 (by decide)).2.2.2 1 (by decide)).1 (by decide)
  · exact ((h.2 0 (by decide)).2.2.2 0 (by decide)).2 (by decide)

/-- C2: for every 3D tensor of shape `[b, l, w]`, `fit(tensor, width)` is the
tensor unchanged when `w = width`, is `trim(tensor, width)` when `w > width`,
is `pad(tensor, width)` when `w < width`, and always has last-axis size
exactly `width`. -/
theorem fit_dispatch_correct (t : Tensor3) (b l w width : ℕ)
    (ht : IsRect3 t b l w) :
    (w = width → fit t width = t)
    ∧ (width < w → fit t width = trim t width)
    ∧ (w < width → fit t width = pad t width)
    ∧ IsRect3 (fit t width) b l width := by
  by_cases hd : b = 0 ∨ l = 0
  · obtain ⟨h1, h2, h3, h4, h5⟩ := degenerate_eq ht hd width
    exact ⟨fun _ => h5, fun _ => by rw [h5, h3], fun _ => by rw [h5, h4],
      by rw [h5]; exact rect_any_of_degenerate ht hd width⟩
  · push_neg at hd
    have hb : 0 < b := Nat.pos_of_ne_zero hd.1
    have hl : 0 < l := Nat.pos_of_ne_zero hd.2
    obtain ⟨hfeq, hftrim, hfpad⟩ := fit_cases ht hb hl width
    refine ⟨hfeq, fun h => ?_, fun h => ?_, rect_fit ht width⟩
    · rw [(hftrim h).1, (hftrim h).2]
    · rw [(hfpad h).1, (hfpad h).2]

/-- Witness for C2 at `t = [[[1, 2, 3]]]` (shape `[1, 1, 3]`) with target
width `2`. -/
theorem fit_dispatch_correct_witness :
    IsRect3 [[[(1 : ℚ), 2, 3]]] 1 1 3
    ∧ fit [[[(1 : ℚ), 2, 3]]] 2 = trim [[[(1 : ℚ), 2, 3]]] 2
    ∧ IsRect3 (fit [[[(1 : ℚ), 2, 3]]] 2) 1 1 2 := by
  have h := fit_dispatch_correct [[[(1 : ℚ), 2, 3]]] 1 1 3 2 (by decide)
  exact ⟨by decide, h.2.1 (by decide), h.2.2.2⟩

/-- C3: for every 3D tensor of shape `[b, l, w]`, `trim(tensor, width)` is
the tensor unchanged (same values, same shape) when `w <= width`, and
otherwise is a tensor of shape `[b, l, width]` whose entries are exactly the
first `width` last-axis elements of the input, batch and length preserved. -/
theorem trim_correct (t : Tensor3) (b l w width : ℕ) (ht : IsRect3 t b l w) :
    (w ≤ width → trim t width = t)
    ∧ (width < w →
        IsRect3 (trim t width) b l width
        ∧ ∀ k j i, k < b → j < l → i < width →
            get3 (trim t width) k j i = get3 t k j i) := by
  by_cases hd : b = 0 ∨ l = 0
  · have h3 := (degenerate_eq ht hd width).2.2.1
    refine ⟨fun _ => h3, fun _ =>
      ⟨by rw [h3]; exact rect_any_of_degenerate ht hd width, ?_⟩⟩
    intro k j i _ _ _
    rw [h3]
  · push_neg at hd
    have hb : 0 < b := Nat.pos_of_ne_zero hd.1
    have hl : 0 < l := Nat.pos_of_ne_zero hd.2
    have hs := shapeLast_of_rect ht hb hl
    refine ⟨fun h => ?_, fun h => ?_⟩
    · unfold trim
      rw [if_pos (by omega)]
    · have htr : trim t width = trimSlice t width := by
        unfold trim
        rw [if_neg (by omega)]
      rw [htr]
      refine ⟨?_, ?_⟩
      · have := rect_trimSlice ht width
        rwa [min_eq_left (by omega)] at this
      · intro k j i _ _ hi
        exact get3_trimSlice t width k j i hi

/-- Witness for C3 at `t = [[[1, 2, 3]]]` with target width `2` (the proper
trimming case) and, for the fast path, width `5`. -/
theorem trim_correct_witness :
    IsRect3 [[[(1 : ℚ), 2, 3]]] 1 1 3
    ∧ trim [[[(1 : ℚ), 2, 3]]] 5 = [[[(1 : ℚ), 2, 3]]]
    ∧ IsRect3 (trim [[[(1 : ℚ), 2, 3]]] 2) 1 1 2
    ∧ get3 (trim [[[(1 : ℚ), 2, 3]]] 2) 0 0 1 = get3 [[[(1 : ℚ), 2, 3]]] 0 0 1 := by
  have h := trim_correct [[[(1 : ℚ), 2, 3]]] 1 1 3 5 (by decide)
  have h2 := trim_correct [[[(1 : ℚ), 2, 3]]] 1 1 3 2 (by decide)
  exact ⟨by decide, h.1 (by decide), (h2.2 (by decide)).1,
    (h2.2 (by decide)).2 0 0 1 (by decide) (by decide) (by decide)⟩

/-- C4: for every 3D tensor of shape `[b, l, w]`, `pad(tensor, width)` is the
tensor unchanged when `w >= width`, and otherwise is a tensor of shape
`[b, l, width]` whose first `w` last-axis elements are the original values
and whose remaining `width - w` elements are exactly `0.0`. -/
theorem pad_correct (t : Tensor3) (b l w width : ℕ) (ht : IsRect3 t b l w) :
    (width ≤ w → pad t width = t)
    ∧ (w < width →
        IsRect3 (pad t width) b l width
        ∧ (∀ k j i, k < b → j < l → i < w →
            get3 (pad t width) k j i = get3 t k j i)
        ∧ (∀ k j i, k < b → j < l → w ≤ i → i < width →
            get3 (pad t width) k j i = 0)) := by
  by_cases hd : b = 0 ∨ l = 0
  · have h4 := (degenerate_eq ht hd width).2.2.2.1
    refine ⟨fun _ => h4, fun _ =>
      ⟨by rw [h4]; exact rect_any_of_degenerate ht hd width, ?_, ?_⟩⟩
    · intro k j i _ _ _
      rw [h4]
    · intro k j i hk hj _ _
      rcases hd with rfl | rfl
      · omega
      · omega
  · push_neg at hd
    have hb : 0 < b := Nat.pos_of_ne_zero hd.1
    have hl : 0 < l := Nat.pos_of_ne_zero hd.2
    have hs := shapeLast_of_rect ht hb hl
    refine ⟨fun h => ?_, fun h => ?_⟩
    · unfold pad
      rw [if_pos (by omega)]
    · have hpd : pad t width = padZeros t width := by
        unfold pad
        rw [if_neg (by omega)]
      rw [hpd]
      refine ⟨?_, ?_, ?_⟩
      · have := rect_padZeros ht hb hl width
        rwa [max_eq_right (by omega)] at this
      · intro k j i hk hj hi
        exact get3_padZeros_left ht width hk hj hi
      · intro k j i hk hj hwi hi
        exact get3_padZeros_zero ht hb hl width hk hj hwi hi

/-- Witness for C4 at `t = [[[1, 2, 3]]]` with target width `5` (the proper
padding case) and, for the fast path, width `1`. -/
theorem pad_correct_witness :
    IsRect3 [[[(1 : ℚ), 2, 3]]] 1 1 3
    ∧ pad [[[(1 : ℚ), 2, 3]]] 1 = [[[(1 : ℚ), 2, 3]]]
    ∧ IsRect3 (pad [[[(1 : ℚ), 2, 3]]] 5) 1 1 5
    ∧ get3 (pad [[[(1 : ℚ), 2, 3]]] 5) 0 0 2 = get3 [[[(1 : ℚ), 2, 3]]] 0 0 2
    ∧ get3 (pad [[[(1 : ℚ), 2, 3]]] 5) 0 0 4 = 0 := by
  have h := pad_correct [[[(1 : ℚ), 2, 3]]] 1 1 3 1 (by decide)
  have h2 := pad_correct [[[(1 : ℚ), 2, 3]]] 1 1 3 5 (by decide)
  exact ⟨by decide, h.1 (by decide), (h2.2 (by decide)).1,
    (h2.2 (by decide)).2.1 0 0 2 (by decide) (by decide) (by decide),
    (h2.2 (by decide)).2.2 0 0 4 (by decide) (by decide) (by decide) (by decide)⟩

/-- C5 counterexample: a negative target width is not rejected — `pad`
called with width `-1` on the tensor `[[[1]]]` returns its input unchanged
as a successful (non-error) result, instead of failing fast with an
input-validation error. -/
theorem eager_validation_refuted :
    padZ [[[(1 : ℚ)]]] (-1) = Except.ok [[[(1 : ℚ)]]] := by
  rfl

/-- C5 (amended): a negative target width is not rejected by `pad`: `pad`
called with any negative width returns its input tensor unchanged as a
successful (non-error) result, because the `tf.cond` guard
`shape[-1] >= width` always holds for a negative width and the negative
padding amount of the untaken `_pad` branch is a runtime tensor that no
graph-time check inspects. -/
theorem no_eager_validation :
    ∀ (t : Tensor3) (w : ℤ), w < 0 → padZ t w = Except.ok t := by
  intro t w hw
  unfold padZ
  rw [if_pos (by have := Int.natCast_nonneg (shapeLast t); omega)]

/-- Witness for the amended C5 at `t = [[[2]]]`, width `-3`. -/
theorem no_eager_validation_witness :
    (-3 : ℤ) < 0 ∧ padZ [[[(2 : ℚ)]]] (-3) = Except.ok [[[(2 : ℚ)]]] :=
  ⟨by decide, no_eager_validation [[[(2 : ℚ)]]] (-3) (by decide)⟩

/-- C6: when some mask row is entirely `0.0`, `softmax` still yields a value
(the embedding is total, as graph construction raises nothing here): the
row's `sums` reduction is `0.0` and every output of that row is the
non-finite IEEE result `0.0 / 0.0 = NaN`. -/
theorem softmax_zero_mask_row (e : ℚ → ℚ) (logits mask : List (List ℚ))
    (k : ℕ) (hk : k < logits.length) (hk' : k < mask.length)
    (hzero : ∀ m ∈ mask.getD k [], m = 0) :
    sums e (logits.getD k []) (mask.getD k []) = 0
    ∧ ∀ v ∈ (softmax e logits mask).getD k [],
        v = FVal.nan ∧ v.isFinite = false := by
  have hz := masked_all_zero e (logits.getD k []) (mask.getD k []) hzero
  have hsum : sums e (logits.getD k []) (mask.getD k []) = 0 := by
    unfold sums
    exact List.sum_eq_zero hz
  refine ⟨hsum, fun v hv => ?_⟩
  have hrow : (softmax e logits mask).getD k []
      = softmaxRow e (logits.getD k []) (mask.getD k []) := by
    unfold softmax
    exact getD_zipWith_pos _ _ _ hk hk' [] [] []
  rw [hrow] at hv
  simp only [softmaxRow, List.mem_map] at hv
  obtain ⟨x, hx, rfl⟩ := hv
  rw [hz x hx, hsum]
  constructor
  · simp [fdiv]
  · simp [fdiv, FVal.isFinite]

/-- Witness for C6 at `logits = [[1, 2]]`, `mask = [[0, 0]]`, row `0`,
with the concrete exponential `expOne`. -/
theorem softmax_zero_mask_row_witness :
    (0 < [[(1 : ℚ), 2]].length)
    ∧ (0 < [[(0 : ℚ), 0]].length)
    ∧ (∀ m ∈ [[(0 : ℚ), 0]].getD 0 [], m = 0)
    ∧ sums expOne ([[(1 : ℚ), 2]].getD 0 []) ([[(0 : ℚ), 0]].getD 0 []) = 0
    ∧ ∀ v ∈ (softmax expOne [[1, 2]] [[0, 0]]).getD 0 [],
        v = FVal.nan ∧ v.isFinite = false := by
  have h := softmax_zero_mask_row expOne [[1, 2]] [[0, 0]] 0
    (by decide) (by decide) (by decide)
  exact ⟨by decide, by decide, by decide, h.1, h.2⟩

/-- C7: `trim`, `pad` and `fit` all preserve the batch and length extents,
only the last axis changes size, and every element at an index present in
both input and output is unchanged. -/
theorem axes_preserved (t : Tensor3) (b l w width : ℕ) (ht : IsRect3 t b l w) :
    IsRect3 (trim t width) b l (min w width)
    ∧ IsRect3 (pad t width) b l (max w width)
    ∧ IsRect3 (fit t width) b l width
    ∧ (∀ k j i, k < b → j < l → i < min w width →
        get3 (trim t width) k j i = get3 t k j i)
    ∧ (∀ k j i, k < b → j < l → i < w →
        get3 (pad t width) k j i = get3 t k j i)
    ∧ (∀ k j i, k < b → j < l → i < min w width →
        get3 (fit t width) k j i = get3 t k j i) := by
  by_cases hd : b = 0 ∨ l = 0
  · obtain ⟨h1, h2, h3, h4, h5⟩ := degenerate_eq ht hd width
    refine ⟨by rw [h3]; exact rect_any_of_degenerate ht hd _,
      by rw [h4]; exact rect_any_of_degenerate ht hd _,
      by rw [h5]; exact rect_any_of_degenerate ht hd _,
      ?_, ?_, ?_⟩
    · intro k j i _ _ _
      rw [h3]
    · intro k j i _ _ _
      rw [h4]
    · intro k j i _ _ _
      rw [h5]
  · push_neg at hd
    have hb : 0 < b := Nat.pos_of_ne_zero hd.1
    have hl : 0 < l := Nat.pos_of_ne_zero hd.2
    have hs := shapeLast_of_rect ht hb hl
    obtain ⟨hfeq, hftrim, hfpad⟩ := fit_cases ht hb hl width
    have htrimrect : IsRect3 (trim t width) b l (min w width) := by
      by_cases hle : w ≤ width
      · unfold trim
        rw [if_pos (by omega), min_eq_left hle]
        exact ht
      · unfold trim
        rw [if_neg (by omega)]
        have := rect_trimSlice ht width
        rwa [min_comm] at this
    have hpadrect : IsRect3 (pad t width) b l (max w width) := by
      by_cases hle : width ≤ w
      · unfold pad
        rw [if_pos (by omega), max_eq_left hle]
        exact ht
      · unfold pad
        rw [if_neg (by omega)]
        exact rect_padZeros ht hb hl width
    refine ⟨htrimrect, hpadrect, rect_fit ht width, ?_, ?_, ?_⟩
    · intro k j i hk hj hi
      by_cases hle : w ≤ width
      · unfold trim
        rw [if_pos (by omega)]
      · unfold trim
        rw [if_neg (by omega)]
        exact get3_trimSlice t width k j i (by omega)
    · intro k j i hk hj hi
      by_cases hle : width ≤ w
      · unfold pad
        rw [if_pos (by omega)]
      · unfold pad
        rw [if_neg (by omega)]
        exact get3_padZeros_left ht width hk hj hi
    · intro k j i hk hj hi
      rcases lt_trichotomy w width with hlt | heq | hgt
      · rw [(hfpad hlt).1]
        exact get3_padZeros_left ht width hk hj (by omega)
      · rw [hfeq heq]
      · rw [(hftrim hgt).1]
        exact get3_trimSlice t width k j i (by omega)

/-- Witness for C7 at `t = [[[1, 2, 3]]]` with target width `2`. -/
theorem axes_preserved_witness :
    IsRect3 [[[(1 : ℚ), 2, 3]]] 1 1 3
    ∧ IsRect3 (trim [[[(1 : ℚ), 2, 3]]] 2) 1 1 (min 3 2)
    ∧ IsRect3 (pad [[[(1 : ℚ), 2, 3]]] 2) 1 1 (max 3 2)
    ∧ IsRect3 (fit [[[(1 : ℚ), 2, 3]]] 2) 1 1 2
    ∧ get3 (fit [[[(1 : ℚ), 2, 3]]] 2) 0 0 0 = get3 [[[(1 : ℚ), 2, 3]]] 0 0 0 := by
  have h := axes_preserved [[[(1 : ℚ), 2, 3]]] 1 1 3 2 (by decide)
  exact ⟨by decide, h.1, h.2.1, h.2.2.1,
    h.2.2.2.2.2 0 0 0 (by decide) (by decide) (by decide)⟩

/-- C8: refitting to the same width is idempotent:
`fit(fit(t, width), width) = fit(t, width)`. -/
theorem fit_refit_idempotent (t : Tensor3) (b l w width : ℕ)
    (ht : IsRect3 t b l w) :
    fit (fit t width) width = fit t width := by
  by_cases hd : b = 0 ∨ l = 0
  · have h5 := (degenerate_eq ht hd width).2.2.2.2
    rw [h5]
    exact h5
  · push_neg at hd
    have hb : 0 < b := Nat.pos_of_ne_zero hd.1
    have hl : 0 < l := Nat.pos_of_ne_zero hd.2
    have hrect : IsRect3 (fit t width) b l width := rect_fit ht width
    have hs2 : shapeLast (fit t width) = width :=
      shapeLast_of_rect hrect hb hl
    obtain ⟨u, hu⟩ : ∃ u, fit t width = u := ⟨_, rfl⟩
    rw [hu] at hs2 ⊢
    unfold fit
    rw [if_pos hs2]

/-- Witness for C8 at `t = [[[1, 2, 3]]]` with target width `5`. -/
theorem fit_refit_idempotent_witness :
    IsRect3 [[[(1 : ℚ), 2, 3]]] 1 1 3
    ∧ fit (fit [[[(1 : ℚ), 2, 3]]] 5) 5 = fit [[[(1 : ℚ), 2, 3]]] 5 :=
  ⟨by decide, fit_refit_idempotent [[[(1 : ℚ), 2, 3]]] 1 1 3 5 (by decide)⟩

/-- C9: the `name` argument of `softmax` only labels the graph scope; for any
logits, any optional mask and any two names the numeric results are
identical. -/
theorem softmax_name_irrelevant (e : ℚ → ℚ) (logits : List (List ℚ))
    (mask : Option (List (List ℚ))) (na nb : String) :
    softmaxOp e logits mask na = softmaxOp e logits mask nb := rfl

/-- C10: a mask of all `1.0` values with the shape of the logits gives
exactly the same result as calling `softmax` with no mask: the explicit
exp/multiply/normalize branch agrees with the library softmax branch when
nothing is masked out. -/
theorem softmax_ones_mask_eq_unmasked (e : ℚ → ℚ)
    (logits mask : List (List ℚ)) (name : String)
    (hshape : List.Forall₂ (fun ls ms => ms.length = ls.length) logits mask)
    (hones : ∀ ms ∈ mask, ∀ m ∈ ms, m = 1) :
    softmaxOp e logits (some mask) name = softmaxOp e logits none name := by
  unfold softmaxOp
  exact softmax_eq_nnSoftmax_of_ones e logits mask hshape hones

/-- Witness for C10 at `logits = [[1, 2]]`, `mask = [[1, 1]]` and the
concrete exponential `expOne`. -/
theorem softmax_ones_mask_eq_unmasked_witness :
    List.Forall₂ (fun ls ms => ms.length = ls.length)
      [[(1 : ℚ), 2]] [[(1 : ℚ), 1]]
    ∧ (∀ ms ∈ [[(1 : ℚ), 1]], ∀ m ∈ ms, m = 1)
    ∧ softmaxOp expOne [[1, 2]] (some [[1, 1]]) "softmax"
        = softmaxOp expOne [[1, 2]] none "softmax" :=
  ⟨List.Forall₂.cons (by decide) List.Forall₂.nil, by decide,
   softmax_ones_mask_eq_unmasked expOne [[1, 2]] [[1, 1]] "softmax"
     (List.Forall₂.cons (by decide) List.Forall₂.nil) (by decide)⟩

end LiteFlow
